import Mathlib

/-!
Shallow embedding of `src/discoverse/airbot_play/airbot_play_fik.py`
(class `AirbotPlayFIK`): an analytic inverse-kinematics solver for a
6-revolute-joint arm.  Python floats are modelled as real numbers, numpy
arrays as functions out of `Fin n`, and `raise ValueError` as the `error`
case of `Except`.  The definitions mirror the source line by line; the
theorems settle the frozen claims about the solver.
-/

namespace AirbotPlayFIK

/-- A 3-vector (a numpy array of length 3). -/
abbrev Vec3 : Type := Fin 3 → ℝ

/-- A 3×3 matrix. -/
abbrev Mat3 : Type := Matrix (Fin 3) (Fin 3) ℝ

/-- A 6-entry joint vector. -/
abbrev JV : Type := Fin 6 → ℝ

/-- `bias = np.array([0.0, -2.7549, 2.7549, 1.5708, 0.0, 0.0])` (line 6). -/
noncomputable def bias : Fin 6 → ℝ := ![0.0, -2.7549, 2.7549, 1.5708, 0.0, 0.0]

/-- `a1 = 0.1172` (line 7). -/
noncomputable def a1 : ℝ := 0.1172

/-- `a3 = 0.27009` (line 8). -/
noncomputable def a3 : ℝ := 0.27009

/-- `a4 = 0.29015` (line 9). -/
noncomputable def a4 : ℝ := 0.29015

/-- `a6 = 0.23645` (line 10). -/
noncomputable def a6 : ℝ := 0.23645

/-- Row 0 of `arm_joint_range` (line 12): the per-joint lower limits. -/
noncomputable def arm_joint_range_lo : Fin 6 → ℝ :=
  ![-3.09, -2.92, -0.04, -2.95, -1.8, -2.90]

/-- Row 1 of `arm_joint_range` (line 13): the per-joint upper limits. -/
noncomputable def arm_joint_range_hi : Fin 6 → ℝ :=
  ![2.04, 0.12, 3.09, 2.95, 1.8, 2.90]

/-- `joint_range_scale = arm_joint_range[1] - arm_joint_range[0]` (line 15). -/
noncomputable def joint_range_scale : Fin 6 → ℝ :=
  fun i => arm_joint_range_hi i - arm_joint_range_lo i

/-- `arm_rot_mat` (lines 17–21), the fixed frame-convention rotation. -/
noncomputable def arm_rot_mat : Mat3 :=
  Matrix.of ![![0, -0, 1], ![0, 1, 0], ![-1, 0, 0]]

/-- `np.arctan2 y x`: the angle of the point `(x, y)`, in `[-π, π]`
(over the reals there is no signed zero, so the value at `y = 0, x < 0`
is `π`). -/
noncomputable def arctan2 (y x : ℝ) : ℝ :=
  if 0 < x then Real.arctan (y / x)
  else if x < 0 then
    (if 0 ≤ y then Real.arctan (y / x) + Real.pi
     else Real.arctan (y / x) - Real.pi)
  else
    (if 0 < y then Real.pi / 2
     else if y < 0 then -(Real.pi / 2)
     else 0)

/-- First `while` loop of `add_bias` (lines 93–94):
`while a > np.pi: a -= 2 * np.pi`. -/
noncomputable def wrapDown (a : ℝ) : ℝ :=
  if h : Real.pi < a then wrapDown (a - 2 * Real.pi) else a
termination_by Nat.ceil ((a - Real.pi) / (2 * Real.pi))
decreasing_by
  have hπ := Real.pi_pos
  have h2 : (a - 2 * Real.pi - Real.pi) / (2 * Real.pi)
      = (a - Real.pi) / (2 * Real.pi) - 1 := by
    field_simp
    ring
  rw [h2]
  have htpos : 0 < (a - Real.pi) / (2 * Real.pi) :=
    div_pos (by linarith) (by linarith)
  rcases le_or_lt 1 ((a - Real.pi) / (2 * Real.pi)) with h1 | h1
  · have hlt : ((⌈(a - Real.pi) / (2 * Real.pi) - 1⌉₊ : ℝ))
        < (a - Real.pi) / (2 * Real.pi) := by
      have := Nat.ceil_lt_add_one (a := (a - Real.pi) / (2 * Real.pi) - 1)
        (by linarith)
      linarith
    exact Nat.lt_ceil.mpr hlt
  · have h0 : ⌈(a - Real.pi) / (2 * Real.pi) - 1⌉₊ = 0 :=
      Nat.ceil_eq_zero.mpr (by linarith)
    rw [h0]
    exact Nat.lt_ceil.mpr (by exact_mod_cast htpos)

/-- Second `while` loop of `add_bias` (lines 95–96):
`while a < -np.pi: a += 2 * np.pi`. -/
noncomputable def wrapUp (a : ℝ) : ℝ :=
  if h : a < -Real.pi then wrapUp (a + 2 * Real.pi) else a
termination_by Nat.ceil ((-Real.pi - a) / (2 * Real.pi))
decreasing_by
  have hπ := Real.pi_pos
  have h2 : (-Real.pi - (a + 2 * Real.pi)) / (2 * Real.pi)
      = (-Real.pi - a) / (2 * Real.pi) - 1 := by
    field_simp
    ring
  rw [h2]
  have htpos : 0 < (-Real.pi - a) / (2 * Real.pi) :=
    div_pos (by linarith) (by linarith)
  rcases le_or_lt 1 ((-Real.pi - a) / (2 * Real.pi)) with h1 | h1
  · have hlt : ((⌈(-Real.pi - a) / (2 * Real.pi) - 1⌉₊ : ℝ))
        < (-Real.pi - a) / (2 * Real.pi) := by
      have := Nat.ceil_lt_add_one (a := (-Real.pi - a) / (2 * Real.pi) - 1)
        (by linarith)
      linarith
    exact Nat.lt_ceil.mpr hlt
  · have h0 : ⌈(-Real.pi - a) / (2 * Real.pi) - 1⌉₊ = 0 :=
      Nat.ceil_eq_zero.mpr (by linarith)
    rw [h0]
    exact Nat.lt_ceil.mpr (by exact_mod_cast htpos)

/-- `add_bias` (lines 89–98): add the bias to each entry, then wrap by
repeated ±2π.  The Python loop builds the output list entry by entry; here
the output is the function of the entry index. -/
noncomputable def add_bias (angle : Fin 6 → ℝ) : Fin 6 → ℝ :=
  fun i => wrapUp (wrapDown (angle i + bias i))

lemma wrapDown_of_not_gt {a : ℝ} (h : ¬ Real.pi < a) : wrapDown a = a := by
  rw [wrapDown]
  simp [h]

lemma wrapDown_of_gt {a : ℝ} (h : Real.pi < a) :
    wrapDown a = wrapDown (a - 2 * Real.pi) := by
  conv_lhs => rw [wrapDown]
  simp [h]

lemma wrapUp_of_not_lt {a : ℝ} (h : ¬ a < -Real.pi) : wrapUp a = a := by
  rw [wrapUp]
  simp [h]

lemma wrapUp_of_lt {a : ℝ} (h : a < -Real.pi) :
    wrapUp a = wrapUp (a + 2 * Real.pi) := by
  conv_lhs => rw [wrapUp]
  simp [h]

/-- The first loop always exits with a value at most `π`. -/
lemma wrapDown_le_pi (a : ℝ) : wrapDown a ≤ Real.pi := by
  induction a using wrapDown.induct with
  | case1 a h ih => rwa [wrapDown_of_gt h]
  | case2 a h => rw [wrapDown_of_not_gt h]; exact le_of_not_lt h

/-- The first loop subtracts an integer number of full turns. -/
lemma wrapDown_sub_int (a : ℝ) : ∃ k : ℤ, wrapDown a = a - 2 * Real.pi * k := by
  induction a using wrapDown.induct with
  | case1 a h ih =>
    obtain ⟨k, hk⟩ := ih
    exact ⟨k + 1, by rw [wrapDown_of_gt h, hk]; push_cast; ring⟩
  | case2 a h => exact ⟨0, by rw [wrapDown_of_not_gt h]; push_cast; ring⟩

/-- Started at or below `π`, the second loop exits inside `[-π, π]`. -/
lemma wrapUp_mem (a : ℝ) (h : a ≤ Real.pi) :
    -Real.pi ≤ wrapUp a ∧ wrapUp a ≤ Real.pi := by
  induction a using wrapUp.induct with
  | case1 a h1 ih =>
    have hπ := Real.pi_pos
    rw [wrapUp_of_lt h1]
    exact ih (by linarith)
  | case2 a h1 => rw [wrapUp_of_not_lt h1]; exact ⟨le_of_not_lt h1, h⟩

/-- The second loop adds an integer number of full turns. -/
lemma wrapUp_add_int (a : ℝ) : ∃ k : ℤ, wrapUp a = a + 2 * Real.pi * k := by
  induction a using wrapUp.induct with
  | case1 a h ih =>
    obtain ⟨k, hk⟩ := ih
    exact ⟨k + 1, by rw [wrapUp_of_lt h, hk]; push_cast; ring⟩
  | case2 a h => exact ⟨0, by rw [wrapUp_of_not_lt h]; push_cast; ring⟩

/-- Each entry of `add_bias angle` lies in `[-π, π]` and differs from
`angle i + bias i` by an integer multiple of `2π`. -/
lemma add_bias_spec (angle : Fin 6 → ℝ) (i : Fin 6) :
    (-Real.pi ≤ add_bias angle i ∧ add_bias angle i ≤ Real.pi) ∧
      ∃ k : ℤ, add_bias angle i = angle i + bias i - 2 * Real.pi * k := by
  constructor
  · exact wrapUp_mem _ (wrapDown_le_pi _)
  · obtain ⟨k1, hk1⟩ := wrapDown_sub_int (angle i + bias i)
    obtain ⟨k2, hk2⟩ := wrapUp_add_int (wrapDown (angle i + bias i))
    exact ⟨k1 - k2, by rw [add_bias, hk2, hk1]; push_cast; ring⟩

/-- `move_joint6_2_joint5` (lines 100–106): shift the target position by
`-a6` along the third column of `ori` to reach the wrist center. -/
noncomputable def move_joint6_2_joint5 (pos : Vec3) (ori : Mat3) : Vec3 :=
  ![-(ori 0 2) * a6 + pos 0,
    -(ori 1 2) * a6 + pos 1,
    -(ori 2 2) * a6 + pos 2]

/-- The law-of-cosines argument `c3` (line 49), computed from the (already
shifted) position alone; the source expression contains no `i1`. -/
noncomputable def c3val (p : Vec3) : ℝ :=
  (p 0 ^ 2 + p 1 ^ 2 + (p 2 - a1) ^ 2 - a3 ^ 2 - a4 ^ 2) / (2 * a3 * a4)

/-- The pre-bias six angles of one branch `(i1, i2, i5)` of the loop nest of
`inverseKin` (lines 47–73), as functions of the shifted position `p` and the
orientation `ori`. -/
noncomputable def preBias (p : Vec3) (ori : Mat3) (i1 i2 i5 : ℝ) : Fin 6 → ℝ :=
  let angle0 := arctan2 (i1 * p 1) (i1 * p 0)
  let c3 := c3val p
  let s3 := i2 * Real.sqrt (1 - c3 ^ 2)
  let angle2 := arctan2 s3 c3
  let k1 := a3 + a4 * c3
  let k2 := a4 * s3
  let angle1 := arctan2
    (k1 * (p 2 - a1) - i1 * k2 * Real.sqrt (p 0 ^ 2 + p 1 ^ 2))
    (i1 * k1 * Real.sqrt (p 0 ^ 2 + p 1 ^ 2) + k2 * (p 2 - a1))
  let R : Mat3 := Matrix.of
    ![![Real.cos angle0 * Real.cos (angle1 + angle2),
        -(Real.cos angle0 * Real.sin (angle1 + angle2)),
        Real.sin angle0],
      ![Real.sin angle0 * Real.cos (angle1 + angle2),
        -(Real.sin angle0 * Real.sin (angle1 + angle2)),
        -Real.cos angle0],
      ![Real.sin (angle1 + angle2), Real.cos (angle1 + angle2), 0]]
  let ori1 := R.transpose * ori
  let angle3 := arctan2 (i5 * ori1 2 2) (i5 * ori1 1 2)
  let angle4 := arctan2 (i5 * Real.sqrt (ori1 2 2 ^ 2 + ori1 1 2 ^ 2)) (ori1 0 2)
  let angle5 := arctan2 (-(i5 * ori1 0 0)) (-(i5 * ori1 0 1))
  ![angle0, angle1, angle2, angle3, angle4, angle5]

/-- The limit filter of line 75:
`np.all((js > arm_joint_range[0]) * (js < arm_joint_range[1]))`. -/
def limOK (js : JV) : Prop :=
  ∀ i, arm_joint_range_lo i < js i ∧ js i < arm_joint_range_hi i

noncomputable instance : DecidablePred limOK := fun _ =>
  Fintype.decidableForallFintype

/-- The eight sign combinations `(i1, i2, i5)` in the order the nested loops
of lines 47, 53 and 70 visit them (`i1` outermost, each `1` before `-1`). -/
noncomputable def signOrder : List (ℝ × ℝ × ℝ) :=
  [(1, 1, 1), (1, 1, -1), (1, -1, 1), (1, -1, -1),
   (-1, 1, 1), (-1, 1, -1), (-1, -1, 1), (-1, -1, -1)]

/-- The list `ret` of lines 45–76: the biased branch vectors that pass the
joint-limit filter, in branch enumeration order. -/
noncomputable def candidates (p : Vec3) (ori : Mat3) : List JV :=
  (signOrder.map (fun s => add_bias (preBias p ori s.1 s.2.1 s.2.2))).filter
    (fun js => decide (limOK js))

/-- The one error the source raises: `ValueError` whose message carries the
(shifted) position and the orientation in `inverseKin` (lines 51 and 78)
and carries no target in `j3_ik` (line 116). -/
inductive IKErr where
  | valueError (target : Option (Vec3 × Mat3))

/-- The per-candidate distance of line 83:
`np.sum(np.abs(ref_q - js) / joint_range_scale)`. -/
noncomputable def jointDist (ref_q js : JV) : ℝ :=
  ∑ i, |ref_q i - js i| / joint_range_scale i

/-- `ret[np.argmin(joint_dist_lst)]` (line 84): the first element of
`a :: l` attaining the minimum of `f`. -/
noncomputable def argminNe {α : Type} (f : α → ℝ) (a : α) (l : List α) : α :=
  match l with
  | [] => a
  | b :: t => if f a ≤ f (argminNe f b t) then a else argminNe f b t

/-- `inverseKin` (lines 41–87).  The `c3` domain check sits inside the `i1`
loop in the source, but `c3` does not depend on `i1` and the raise aborts
the whole call before any candidate is returned, so it is checked once up
front; `.inl` is the no-reference return (the whole list), `.inr` the
with-reference return (the selected vector). -/
noncomputable def inverseKin (pos : Vec3) (ori : Mat3) (ref_q : Option JV) :
    Except IKErr (List JV ⊕ JV) :=
  let p := move_joint6_2_joint5 pos ori
  if 1 < c3val p ∨ c3val p < -1 then
    .error (.valueError (some (p, ori)))
  else
    match candidates p ori, ref_q with
    | [], _ => .error (.valueError (some (p, ori)))
    | h :: t, none => .ok (.inl (h :: t))
    | h :: t, some r => .ok (.inr (argminNe (jointDist r) h t))

/-- `properIK` (lines 31–32): re-express the orientation in the solver's
convention and delegate. -/
noncomputable def properIK (pos : Vec3) (ori : Mat3) (ref_q : Option JV) :
    Except IKErr (List JV ⊕ JV) :=
  inverseKin pos (ori * arm_rot_mat) ref_q

/-- The pre-bias three angles of one branch `(i1, i2)` of `j3_ik`
(lines 112–124); the formulas coincide with the first three of `preBias`. -/
noncomputable def preBias3 (p : Vec3) (i1 i2 : ℝ) : Fin 3 → ℝ :=
  let angle0 := arctan2 (i1 * p 1) (i1 * p 0)
  let c3 := c3val p
  let s3 := i2 * Real.sqrt (1 - c3 ^ 2)
  let angle2 := arctan2 s3 c3
  let k1 := a3 + a4 * c3
  let k2 := a4 * s3
  let angle1 := arctan2
    (k1 * (p 2 - a1) - i1 * k2 * Real.sqrt (p 0 ^ 2 + p 1 ^ 2))
    (i1 * k1 * Real.sqrt (p 0 ^ 2 + p 1 ^ 2) + k2 * (p 2 - a1))
  ![angle0, angle1, angle2]

/-- `self.add_bias(angle)` on a length-3 list (line 125): the loop runs over
`range(len(angle))`, so only the first three bias entries are used. -/
noncomputable def add_bias3 (angle : Fin 3 → ℝ) : Fin 3 → ℝ :=
  fun i => wrapUp (wrapDown (angle i + bias (Fin.castLE (by norm_num) i)))

/-- The limit filter of line 126, over `arm_joint_range[:, :3]`. -/
def limOK3 (js : Fin 3 → ℝ) : Prop :=
  ∀ i : Fin 3, arm_joint_range_lo (Fin.castLE (by norm_num) i) < js i ∧
    js i < arm_joint_range_hi (Fin.castLE (by norm_num) i)

noncomputable instance : DecidablePred limOK3 := fun _ =>
  Fintype.decidableForallFintype

/-- The four sign combinations `(i1, i2)` of `j3_ik` in loop order. -/
noncomputable def signOrder3 : List (ℝ × ℝ) :=
  [(1, 1), (1, -1), (-1, 1), (-1, -1)]

/-- The list `ret` of `j3_ik` (lines 110–127). -/
noncomputable def candidates3 (p : Vec3) : List (Fin 3 → ℝ) :=
  (signOrder3.map (fun s => add_bias3 (preBias3 p s.1 s.2))).filter
    (fun js => decide (limOK3 js))

/-- `j3_ik` (lines 108–128): no wrist-center shift, the same hoisted domain
check (raising without any target attached, line 116), and the possibly
empty candidate list returned with no emptiness check. -/
noncomputable def j3_ik (pos : Vec3) : Except IKErr (List (Fin 3 → ℝ)) :=
  if 1 < c3val pos ∨ c3val pos < -1 then
    .error (.valueError none)
  else
    .ok (candidates3 pos)

/-- The joint vectors a result of `inverseKin` hands to the caller: none on
error, the whole list without a reference, the one selected vector with. -/
def okEntries : Except IKErr (List JV ⊕ JV) → List JV
  | .error _ => []
  | .ok (.inl l) => l
  | .ok (.inr q) => [q]

/-- The joint vectors a result of `j3_ik` hands to the caller. -/
def okEntries3 : Except IKErr (List (Fin 3 → ℝ)) → List (Fin 3 → ℝ)
  | .error _ => []
  | .ok l => l

lemma argminNe_mem {α : Type} (f : α → ℝ) (a : α) (l : List α) :
    argminNe f a l ∈ a :: l := by
  induction l generalizing a with
  | nil => simp [argminNe]
  | cons b t ih =>
    rw [argminNe]
    split
    · exact List.mem_cons_self _ _
    · exact List.mem_cons_of_mem _ (ih b)

lemma argminNe_le {α : Type} (f : α → ℝ) (a : α) (l : List α) :
    ∀ x ∈ a :: l, f (argminNe f a l) ≤ f x := by
  induction l generalizing a with
  | nil => intro x hx; rw [List.mem_singleton] at hx; subst hx; simp [argminNe]
  | cons b t ih =>
    intro x hx
    rw [argminNe]
    rcases List.mem_cons.mp hx with hx | hx
    · subst hx
      split
      · exact le_refl _
      · exact le_of_lt (lt_of_not_le (by assumption))
    · split
      · exact le_trans (by assumption) (ih b x hx)
      · exact ih b x hx

/-- `argminNe` returns the earliest minimizer: everything before it in the
list has strictly larger `f`-value. -/
lemma argminNe_earliest {α : Type} (f : α → ℝ) (a : α) (l : List α) :
    ∃ l1 l2, a :: l = l1 ++ argminNe f a l :: l2 ∧
      ∀ x ∈ l1, f (argminNe f a l) < f x := by
  induction l generalizing a with
  | nil => exact ⟨[], [], by simp [argminNe], by simp⟩
  | cons b t ih =>
    obtain ⟨l1, l2, heq, hlt⟩ := ih b
    by_cases hle : f a ≤ f (argminNe f b t)
    · refine ⟨[], b :: t, ?_, by simp⟩
      rw [argminNe, if_pos hle]
      rfl
    · refine ⟨a :: l1, l2, ?_, ?_⟩
      · rw [argminNe, if_neg hle, List.cons_append, heq]
      · intro x hx
        rw [argminNe, if_neg hle]
        rcases List.mem_cons.mp hx with hx | hx
        · subst hx; exact lt_of_not_le hle
        · exact hlt x hx

/-- Everything in `candidates` passed the joint-limit filter. -/
lemma candidates_limOK {p : Vec3} {ori : Mat3} {q : JV}
    (h : q ∈ candidates p ori) : limOK q := by
  rw [candidates] at h
  have := (List.mem_filter.mp h).2
  simpa using this

/-- At most one candidate per sign branch: the list has length at most 8. -/
lemma candidates_length_le (p : Vec3) (ori : Mat3) :
    (candidates p ori).length ≤ 8 := by
  rw [candidates]
  exact le_trans (List.length_filter_le _ _) (by rw [List.length_map]; rfl)

/-- Everything in `candidates3` passed the joint-limit filter. -/
lemma candidates3_limOK3 {p : Vec3} {q : Fin 3 → ℝ}
    (h : q ∈ candidates3 p) : limOK3 q := by
  rw [candidates3] at h
  have := (List.mem_filter.mp h).2
  simpa using this

/-- Every joint vector `inverseKin` hands to the caller is a member of the
branch-candidate list built from the wrist-shifted position. -/
lemma okEntries_subset_candidates (pos : Vec3) (ori : Mat3)
    (ref_q : Option JV) :
    ∀ q ∈ okEntries (inverseKin pos ori ref_q),
      q ∈ candidates (move_joint6_2_joint5 pos ori) ori := by
  intro q hq
  simp only [inverseKin] at hq
  split at hq
  · simp [okEntries] at hq
  · rename_i heq
    split at hq
    · simp [okEntries] at hq
    · rename_i h t r heq2
      simp only [okEntries] at hq
      rw [heq2]; exact hq
    · rename_i h t r heq2
      simp only [okEntries, List.mem_singleton] at hq
      subst hq
      rw [heq2]
      exact argminNe_mem _ _ _

/-- `c3 > 1` says the squared wrist-center–to–shoulder distance exceeds
`(a3 + a4)²`. -/
lemma c3_gt_one_iff (p : Vec3) :
    1 < c3val p ↔ (a3 + a4) ^ 2 < p 0 ^ 2 + p 1 ^ 2 + (p 2 - a1) ^ 2 := by
  rw [c3val, lt_div_iff₀ (by rw [a3, a4]; norm_num : (0 : ℝ) < 2 * a3 * a4)]
  constructor <;> intro h <;> nlinarith [h]

/-- `c3 < -1` says that distance is below `(a3 - a4)²`. -/
lemma c3_lt_neg_one_iff (p : Vec3) :
    c3val p < -1 ↔ p 0 ^ 2 + p 1 ^ 2 + (p 2 - a1) ^ 2 < (a3 - a4) ^ 2 := by
  rw [c3val, div_lt_iff₀ (by rw [a3, a4]; norm_num : (0 : ℝ) < 2 * a3 * a4)]
  constructor <;> intro h <;> nlinarith [h]

/-- C2.  The `c3` expression of line 49 is computed from the shifted
position alone — the source expression contains no `i1`, so the domain
failure is the same on both shoulder-yaw branches and the raise at line 51
aborts the whole call.  The failure condition `c3 > 1 ∨ c3 < -1` holds
exactly when the wrist center is farther than `a3 + a4` from the shoulder
point `(0, 0, a1)` or closer than `|a3 - a4|` (in squared form), and when
it holds `inverseKin` returns the error carrying the shifted position and
the orientation — no candidate is returned. -/
theorem inverseKin_domainError_iff (pos : Vec3) (ori : Mat3)
    (ref_q : Option JV) :
    ((1 < c3val (move_joint6_2_joint5 pos ori) ∨
        c3val (move_joint6_2_joint5 pos ori) < -1) ↔
      ((a3 + a4) ^ 2 <
          (move_joint6_2_joint5 pos ori) 0 ^ 2 +
          (move_joint6_2_joint5 pos ori) 1 ^ 2 +
          ((move_joint6_2_joint5 pos ori) 2 - a1) ^ 2 ∨
        (move_joint6_2_joint5 pos ori) 0 ^ 2 +
          (move_joint6_2_joint5 pos ori) 1 ^ 2 +
          ((move_joint6_2_joint5 pos ori) 2 - a1) ^ 2 < (a3 - a4) ^ 2)) ∧
    (∀ _ : (1 < c3val (move_joint6_2_joint5 pos ori) ∨
        c3val (move_joint6_2_joint5 pos ori) < -1),
      inverseKin pos ori ref_q =
        .error (.valueError (some (move_joint6_2_joint5 pos ori, ori)))) ∧
    (∀ _ : ¬ (1 < c3val (move_joint6_2_joint5 pos ori) ∨
        c3val (move_joint6_2_joint5 pos ori) < -1),
      ∀ e, inverseKin pos ori ref_q = .error e →
        candidates (move_joint6_2_joint5 pos ori) ori = []) := by
  refine ⟨?_, ?_, ?_⟩
  · rw [c3_gt_one_iff, c3_lt_neg_one_iff]
  · intro h
    simp only [inverseKin]
    rw [if_pos h]
  · intro h e he
    simp only [inverseKin] at he
    rw [if_neg h] at he
    split at he
    · assumption
    · exact Except.noConfusion he
    · exact Except.noConfusion he

/-- Witness for C2: the target at `x = 10` (identity orientation, wrist
center `(10, 0, -a6)`) violates the reach envelope and the solve returns
the error carrying that wrist center and the orientation. -/
theorem inverseKin_domainError_witness :
    inverseKin ![10, 0, 0] (1 : Mat3) none =
      .error (.valueError
        (some (move_joint6_2_joint5 ![10, 0, 0] (1 : Mat3), (1 : Mat3)))) :=
  (inverseKin_domainError_iff ![10, 0, 0] (1 : Mat3) none).2.1
    (by
      left
      rw [c3_gt_one_iff]
      simp [move_joint6_2_joint5, Matrix.one_apply, a1, a3, a4, a6]
      norm_num)

/-- C3.  Limit compliance: every joint vector `inverseKin` returns (with or
without a reference) and every vector `j3_ik` returns satisfies
`lo i < q i < hi i` strictly for each joint index; vectors outside a limit
are filtered out of the candidate list and never returned. -/
theorem limit_compliance (pos : Vec3) (ori : Mat3) (ref_q : Option JV)
    (pos3 : Vec3) :
    (okEntries (inverseKin pos ori ref_q)).Forall limOK ∧
    (okEntries3 (j3_ik pos3)).Forall limOK3 := by
  constructor
  · rw [List.forall_iff_forall_mem]
    intro q hq
    exact candidates_limOK (okEntries_subset_candidates pos ori ref_q q hq)
  · rw [List.forall_iff_forall_mem]
    intro q hq
    rw [j3_ik] at hq
    split at hq
    · simp [okEntries3] at hq
    · exact candidates3_limOK3 (by simpa [okEntries3] using hq)

/-- C9.  Shape of a normal return of `inverseKin`: without a reference it
returns the whole candidate list, which is never empty (1 to 8 vectors, at
most one per sign branch); when no candidate survives it returns the error
instead of an empty list; with a reference it returns exactly one vector
and that vector is a member of the candidate list. -/
theorem inverseKin_result_shape (pos : Vec3) (ori : Mat3) (r : JV) :
    (∀ l, inverseKin pos ori none = .ok (.inl l) →
      (1 ≤ l.length ∧ l.length ≤ 8) ∧
        l = candidates (move_joint6_2_joint5 pos ori) ori) ∧
    (∀ x, inverseKin pos ori none = .ok x → ∃ l, x = .inl l) ∧
    (candidates (move_joint6_2_joint5 pos ori) ori = [] →
      inverseKin pos ori none =
        .error (.valueError (some (move_joint6_2_joint5 pos ori, ori)))) ∧
    (∀ q, inverseKin pos ori (some r) = .ok (.inr q) →
      q ∈ candidates (move_joint6_2_joint5 pos ori) ori) ∧
    (∀ x, inverseKin pos ori (some r) = .ok x → ∃ q, x = .inr q) := by
  refine ⟨?_, ?_, ?_, ?_, ?_⟩
  · intro l hl
    simp only [inverseKin] at hl
    split at hl
    · exact Except.noConfusion hl
    · split at hl
      · exact Except.noConfusion hl
      · rename_i hd tl heqL heqN
        simp only [Except.ok.injEq, Sum.inl.injEq] at hl
        subst hl
        exact ⟨⟨by simp, heqL ▸ candidates_length_le _ _⟩, heqL.symm⟩
      · rename_i hd tl r2 heqL heqN
        exact Option.noConfusion heqN
  · intro x hx
    simp only [inverseKin] at hx
    split at hx
    · exact Except.noConfusion hx
    · split at hx
      · exact Except.noConfusion hx
      · simp only [Except.ok.injEq] at hx
        exact ⟨_, hx.symm⟩
      · rename_i hd tl r2 heqL heqN
        exact Option.noConfusion heqN
  · intro h
    simp only [inverseKin]
    split
    · rfl
    · split
      · rfl
      · rename_i hd tl heqL heqN
        rw [h] at heqL
        exact List.noConfusion heqL
      · rename_i hd tl r2 heqL heqN
        exact Option.noConfusion heqN
  · intro q hq
    simp only [inverseKin] at hq
    split at hq
    · exact Except.noConfusion hq
    · split at hq
      · exact Except.noConfusion hq
      · rename_i hd tl heqL heqN
        exact Option.noConfusion heqN
      · rename_i hd tl r2 heqL heqN
        injection heqN with hr
        subst hr
        simp only [Except.ok.injEq, Sum.inr.injEq] at hq
        subst hq
        rw [heqL]
        exact argminNe_mem _ _ _
  · intro x hx
    simp only [inverseKin] at hx
    split at hx
    · exact Except.noConfusion hx
    · split at hx
      · exact Except.noConfusion hx
      · rename_i hd tl heqL heqN
        exact Option.noConfusion heqN
      · simp only [Except.ok.injEq] at hx
        exact ⟨_, hx.symm⟩

/-- C4.  When a reference is supplied and the solve succeeds, the returned
vector minimizes the range-normalized absolute distance to the reference
over the candidate list, and it is the earliest such minimizer in branch
enumeration order: every candidate generated before it has strictly larger
distance. -/
theorem selection_min_earliest (pos : Vec3) (ori : Mat3) (r : JV) :
    (∀ q, inverseKin pos ori (some r) = .ok (.inr q) →
      ∀ q2 ∈ candidates (move_joint6_2_joint5 pos ori) ori,
        jointDist r q ≤ jointDist r q2) ∧
    (∀ q, inverseKin pos ori (some r) = .ok (.inr q) →
      ∃ l1 l2, candidates (move_joint6_2_joint5 pos ori) ori = l1 ++ q :: l2 ∧
        ∀ q2 ∈ l1, jointDist r q < jointDist r q2) := by
  constructor
  · intro q hq
    simp only [inverseKin] at hq
    split at hq
    · exact Except.noConfusion hq
    · split at hq
      · exact Except.noConfusion hq
      · rename_i hd tl heqL heqN
        exact Option.noConfusion heqN
      · rename_i hd tl r2 heqL heqN
        injection heqN with hr
        subst hr
        simp only [Except.ok.injEq, Sum.inr.injEq] at hq
        subst hq
        rw [heqL]
        exact argminNe_le _ _ _
  · intro q hq
    simp only [inverseKin] at hq
    split at hq
    · exact Except.noConfusion hq
    · split at hq
      · exact Except.noConfusion hq
      · rename_i hd tl heqL heqN
        exact Option.noConfusion heqN
      · rename_i hd tl r2 heqL heqN
        injection heqN with hr
        subst hr
        simp only [Except.ok.injEq, Sum.inr.injEq] at hq
        subst hq
        rw [heqL]
        exact argminNe_earliest _ _ _

/-- Counterexample to C5 as stated: at entry value `-π` (joint 0, bias 0)
the two wrap loops do nothing and `add_bias` returns `-π` itself, which is
not in the claimed half-open interval `(-π, π]`. -/
theorem add_bias_boundary_cex :
    add_bias ![-Real.pi, 0, 0, 0, 0, 0] 0 = -Real.pi ∧
      ¬ (-Real.pi < add_bias ![-Real.pi, 0, 0, 0, 0, 0] 0) := by
  have hπ := Real.pi_pos
  have harg : (![-Real.pi, 0, 0, 0, 0, 0] : Fin 6 → ℝ) 0 + bias 0 = -Real.pi := by
    simp [bias]
    norm_num
  have h0 : add_bias ![-Real.pi, 0, 0, 0, 0, 0] 0 = -Real.pi := by
    rw [add_bias]
    rw [harg, wrapDown_of_not_gt (by linarith),
      wrapUp_of_not_lt (lt_irrefl _)]
  exact ⟨h0, by rw [h0]; exact lt_irrefl _⟩

/-- C5 (amended).  `add_bias` adds the fixed bias vector elementwise and
wraps each entry into the closed interval `[-π, π]` (the endpoint `-π` is
reachable, so the interval is closed, not `(-π, π]`); each output entry is
congruent to the unbiased angle plus its bias modulo `2π`. -/
theorem add_bias_bias_and_wrap (angle : JV) (i : Fin 6) :
    (-Real.pi ≤ add_bias angle i ∧ add_bias angle i ≤ Real.pi) ∧
      ∃ k : ℤ, add_bias angle i = angle i + bias i - 2 * Real.pi * k :=
  add_bias_spec angle i

/-- C10.  `add_bias` is total — each while loop strictly decreases the
distance to `[-π, π]`, which the termination measures of `wrapDown` and
`wrapUp` make precise — and its `i`-th output equals
`angle i + bias i - 2πk` for some integer `k`, lying in `[-π, π]`. -/
theorem add_bias_terminates_in_range (angle : JV) (i : Fin 6) :
    ∃ k : ℤ, add_bias angle i = angle i + bias i - 2 * Real.pi * k ∧
      add_bias angle i ∈ Set.Icc (-Real.pi) Real.pi := by
  obtain ⟨⟨h1, h2⟩, k, hk⟩ := add_bias_spec angle i
  exact ⟨k, hk, ⟨h1, h2⟩⟩

/-- C6.  Boundary reach: when the wrist center sits at squared distance
exactly `(a3 + a4)²` (full extension) or `(a3 - a4)²` (full fold) from the
shoulder point `(0, 0, a1)`, the law-of-cosines argument is exactly `1`
resp. `-1`, the elbow sine `sqrt(1 - c3²)` is `0`, and the two elbow
branches `i2 = 1` and `i2 = -1` produce the same angles — a single elbow
solution per shoulder-yaw branch, not two. -/
theorem boundary_reach (p : Vec3) (ori : Mat3) (i1 i5 : ℝ) :
    (p 0 ^ 2 + p 1 ^ 2 + (p 2 - a1) ^ 2 = (a3 + a4) ^ 2 →
      c3val p = 1 ∧ Real.sqrt (1 - c3val p ^ 2) = 0 ∧
        preBias p ori i1 1 i5 = preBias p ori i1 (-1) i5) ∧
    (p 0 ^ 2 + p 1 ^ 2 + (p 2 - a1) ^ 2 = (a3 - a4) ^ 2 →
      c3val p = -1 ∧ Real.sqrt (1 - c3val p ^ 2) = 0 ∧
        preBias p ori i1 1 i5 = preBias p ori i1 (-1) i5) := by
  constructor
  · intro h
    have hc : c3val p = 1 := by
      rw [c3val, h, a3, a4]; norm_num
    have hs : Real.sqrt (1 - c3val p ^ 2) = 0 := by
      rw [hc]; norm_num
    exact ⟨hc, hs, by simp only [preBias, hs, mul_zero]⟩
  · intro h
    have hc : c3val p = -1 := by
      rw [c3val, h, a3, a4]; norm_num
    have hs : Real.sqrt (1 - c3val p ^ 2) = 0 := by
      rw [hc]; norm_num
    exact ⟨hc, hs, by simp only [preBias, hs, mul_zero]⟩

/-- Witness for C6 at the two concrete boundary wrist centers
`(a3 + a4, 0, a1)` and `(a3 - a4, 0, a1)`. -/
theorem boundary_reach_witness :
    (c3val ![a3 + a4, 0, a1] = 1 ∧
      Real.sqrt (1 - c3val ![a3 + a4, 0, a1] ^ 2) = 0 ∧
      preBias ![a3 + a4, 0, a1] 1 1 1 1 = preBias ![a3 + a4, 0, a1] 1 1 (-1) 1) ∧
    (c3val ![a3 - a4, 0, a1] = -1 ∧
      Real.sqrt (1 - c3val ![a3 - a4, 0, a1] ^ 2) = 0 ∧
      preBias ![a3 - a4, 0, a1] 1 1 1 1 = preBias ![a3 - a4, 0, a1] 1 1 (-1) 1) :=
  ⟨(boundary_reach ![a3 + a4, 0, a1] 1 1 1).1 (by simp),
   (boundary_reach ![a3 - a4, 0, a1] 1 1 1).2 (by simp)⟩

/-- Counterexample to C7 as stated: the domain failure of `j3_ik` at the
unreachable point `(10, 0, 0)` raises a `ValueError` that carries no
target at all (source line 116 formats nothing into the message), so not
every solve failure carries the offending target. -/
theorem j3_ik_no_target_cex : j3_ik ![10, 0, 0] = .error (.valueError none) := by
  have hc : 1 < c3val ![10, 0, 0] ∨ c3val ![10, 0, 0] < -1 := by
    left
    rw [c3_gt_one_iff]
    simp [a1, a3, a4]
    norm_num
  rw [j3_ik, if_pos hc]

/-- C7 (amended).  Both failures of `inverseKin` are explicitly raised
recoverable errors carrying the attempted orientation and the wrist-shifted
position; `j3_ik`'s domain failure is an explicitly raised error carrying
no target, and `j3_ik` has no all-candidates-eliminated failure — outside
the domain failure it returns the possibly empty candidate list. -/
theorem failure_signaling (pos : Vec3) (ori : Mat3) (ref_q : Option JV)
    (pos3 : Vec3) :
    (∀ e, inverseKin pos ori ref_q = .error e →
      e = .valueError (some (move_joint6_2_joint5 pos ori, ori))) ∧
    (∀ e, j3_ik pos3 = .error e → e = .valueError none) ∧
    (¬ (1 < c3val pos3 ∨ c3val pos3 < -1) →
      j3_ik pos3 = .ok (candidates3 pos3)) := by
  refine ⟨?_, ?_, ?_⟩
  · intro e he
    simp only [inverseKin] at he
    split at he
    · simp only [Except.error.injEq] at he
      exact he.symm
    · split at he
      · simp only [Except.error.injEq] at he
        exact he.symm
      · exact Except.noConfusion he
      · exact Except.noConfusion he
  · intro e he
    rw [j3_ik] at he
    split at he
    · simp only [Except.error.injEq] at he
      exact he.symm
    · exact Except.noConfusion he
  · intro h
    rw [j3_ik, if_neg h]

/-- Witness for C7's amended claim: a reachable point for `j3_ik` (wrist
center `(0.3, 0, a1)`) takes the non-raising path and returns the candidate
list. -/
theorem failure_signaling_witness :
    j3_ik ![0.3, 0, 0.1172] = .ok (candidates3 ![0.3, 0, 0.1172]) :=
  (failure_signaling ![0, 0, 0] 1 none ![0.3, 0, 0.1172]).2.2 (by
    rw [c3_gt_one_iff, c3_lt_neg_one_iff]
    push_neg
    constructor <;> · simp [a1, a3, a4]; norm_num)

/-- C8.  Wrist-center decoupling: `properIK` re-expresses the orientation
by right-multiplying with the fixed frame rotation; the shifted position is
`pos - a6 · ori[:, 2]` componentwise; and `inverseKin` depends on the
target position only through that wrist center. -/
theorem wrist_center_decoupling (pos : Vec3) (ori : Mat3)
    (ref_q : Option JV) :
    properIK pos ori ref_q = inverseKin pos (ori * arm_rot_mat) ref_q ∧
    (∀ i, move_joint6_2_joint5 pos ori i = pos i - a6 * ori i 2) ∧
    (∀ pos2 : Vec3,
      move_joint6_2_joint5 pos2 ori = move_joint6_2_joint5 pos ori →
      inverseKin pos2 ori ref_q = inverseKin pos ori ref_q) := by
  refine ⟨rfl, ?_, ?_⟩
  · intro i
    fin_cases i <;> · simp [move_joint6_2_joint5]; ring
  · intro pos2 h
    simp only [inverseKin, h]

/-- Witness for C8: instantiating the decoupling at the origin target with
the identity orientation. -/
theorem wrist_center_decoupling_witness :
    inverseKin ![0, 0, 0] (1 : Mat3) none = inverseKin ![0, 0, 0] (1 : Mat3) none :=
  (wrist_center_decoupling ![0, 0, 0] (1 : Mat3) none).2.2 ![0, 0, 0] rfl

end AirbotPlayFIK
